import Mathlib

/-!
Verification of the `env` package: a process-environment configuration
utility with `.env` file loading, typed getters/setters and a `${...}`
variable-expansion engine.

Strings are modelled as `List Char` (Go's `for _, b := range s` iterates
runes; all delimiter characters involved are ASCII, so rune-level and
byte-level scanning coincide for the checks performed).  The process
environment is modelled as an association list with unique keys; Go's
`os.LookupEnv` / `os.Setenv` become `lookupEnv` / `setEnv`.  Functions
that can panic in Go (string indexing out of range inside the expansion
mapping) return `Option`: `none` models the panic.
-/

namespace GoEnv

abbrev Str := List Char

instance {ε α : Type _} [DecidableEq ε] [DecidableEq α] :
    DecidableEq (Except ε α) := fun a b =>
  match a, b with
  | .error x, .error y =>
    if h : x = y then .isTrue (by rw [h]) else .isFalse (by simp [h])
  | .error _, .ok _ => .isFalse (by simp)
  | .ok _, .error _ => .isFalse (by simp)
  | .ok x, .ok y =>
    if h : x = y then .isTrue (by rw [h]) else .isFalse (by simp [h])

abbrev EnvMap := List (Str × Str)

/-- Model of `os.LookupEnv`: first binding of the key, if any. -/
def lookupEnv : EnvMap → Str → Option Str
  | [], _ => none
  | (ka, v) :: rest, k => if ka = k then some v else lookupEnv rest k

/-- Model of `os.Setenv` on valid names: replace the binding if present,
append otherwise.  (The error path of `os.Setenv` for invalid names is
not modelled; file-parsed keys are valid names.) -/
def setEnv : EnvMap → Str → Str → EnvMap
  | [], k, v => [(k, v)]
  | (ka, va) :: rest, k, v =>
    if ka = k then (k, v) :: rest else (ka, va) :: setEnv rest k v

/-- Keys of `os.Environ()`, as collected by `Load` into `currentKeys`. -/
def envKeysOf (env : EnvMap) : List Str := env.map Prod.fst

/-- The whitespace test of `strings.TrimSpace` (`unicode.IsSpace`),
restricted to the Latin-1 range; space runes above U+00FF are omitted
from the model (no claim depends on them). -/
def goIsSpace (c : Char) : Bool :=
  c = ' ' || c = '\t' || c = '\n' || c = '\x0b' || c = '\x0c' || c = '\r' ||
    c = '\x85' || c = '\xa0'

def trimLeft : Str → Str
  | [] => []
  | c :: rest => if goIsSpace c then trimLeft rest else c :: rest

/-- Model of `strings.TrimSpace`. -/
def trimSpace (s : Str) : Str := (trimLeft (trimLeft s).reverse).reverse

/-- Model of `strings.ReplaceAll(s, "\\|", "|")`: left-to-right,
non-overlapping replacement of the two-character sequence. -/
def replaceEscPipe : Str → Str
  | [] => []
  | '\\' :: '|' :: rest => '|' :: replaceEscPipe rest
  | c :: rest => c :: replaceEscPipe rest

/-- The delimiter scan of the mapping closure inside `Expand`
(`for i, b := range key`): `prev` is the previous character (`key[i-1]`),
`pending` the current segment (`key[startIndex:i]`), `acc` the collected
`envKeys`, `wd` the `withDefault` flag.  A `'|'` at position 0 evaluates
`key[i-1]` with `i = 0`, an index-out-of-range panic: `none`. -/
def scanSegs : Option Char → Str → Str → List Str → Bool →
    Option (List Str × Str × Bool)
  | _, [], pending, acc, wd => some (acc, pending, wd)
  | prev, c :: rest, pending, acc, wd =>
    if c = '|' then
      match prev with
      | none => none
      | some p =>
        if p = '\\' then scanSegs (some c) rest (pending ++ [c]) acc wd
        else scanSegs (some c) rest [] (acc ++ [pending]) true
    else scanSegs (some c) rest (pending ++ [c]) acc wd

/-- The resolution loop of the mapping closure: first candidate key that
is set wins, otherwise the default value. -/
def resolveKeys (env : EnvMap) : List Str → Str → Str
  | [], dflt => dflt
  | k :: ks, dflt =>
    match lookupEnv env k with
    | some v => v
    | none => resolveKeys env ks dflt

/-- The anonymous mapping closure passed to `os.Expand` inside `Expand`:
trim the body, strip a leading `'|'` (setting `withDefault`), scan for
unescaped `'|'` delimiters, unescape the default value only, then
resolve.  `none` models the two index-out-of-range panics (`key[0]` on
an empty trimmed body, `key[i-1]` when a `'|'` is scanned at index 0). -/
def expandBody (env : EnvMap) (body : Str) : Option Str :=
  match trimSpace body with
  | [] => none
  | c :: rest =>
    let key := if c = '|' then rest else c :: rest
    match scanSegs none key [] [] (c = '|') with
    | none => none
    | some (segs, lastSeg, wd) =>
      if wd then some (resolveKeys env segs (replaceEscPipe lastSeg))
      else some (resolveKeys env (segs ++ [key]) [])

/-- Model of `os.Expand`'s `isShellSpecialVar`. -/
def isShellSpecialVar (c : Char) : Bool :=
  c = '*' || c = '#' || c = '$' || c = '@' || c = '!' || c = '?' || c = '-' ||
    ('0' ≤ c && c ≤ '9')

/-- Model of `os.Expand`'s `isAlphaNum`. -/
def isAlphaNumGo (c : Char) : Bool :=
  c = '_' || ('0' ≤ c && c ≤ '9') || ('a' ≤ c && c ≤ 'z') ||
    ('A' ≤ c && c ≤ 'Z')

/-- Model of `os.Expand`'s `getShellName`, applied to the text after a
`'$'`: returns the referenced name and the number of characters
consumed.  For `'{'`-forms the special-var shortcut and the
scan-to-first-`'}'` loop produce: name between the braces, or `("", 2)`
for `"{}"`, or `("", 1)` when no `'}'` follows. -/
def getShellName : Str → Str × Nat
  | [] => ([], 0)
  | '{' :: c1 :: '}' :: _ =>
    if c1 = '}' then ([], 2) else ([c1], 3)
  | '{' :: rest =>
    (match rest.findIdx? (· = '}') with
     | none => ([], 1)
     | some 0 => ([], 2)
     | some j => (rest.take j, j + 2))
  | c :: rest =>
    if isShellSpecialVar c then ([c], 1)
    else
      ((c :: rest).takeWhile isAlphaNumGo,
        ((c :: rest).takeWhile isAlphaNumGo).length)

/-- Model of `os.Expand`'s scan, fuel-indexed to make the recursion
structural (each step consumes at least one character, so `s.length`
fuel always suffices; the out-of-fuel branch is unreachable from
`osExpand`).  A `none` from the mapping (panic) propagates. -/
def osExpandFuel (mapping : Str → Option Str) : Nat → Str → Option Str
  | _, [] => some []
  | 0, _ :: _ => none
  | fuel + 1, c :: rest =>
    if c = '$' ∧ rest ≠ [] then
      let nw := getShellName rest
      if nw.1 = [] then
        if nw.2 > 0 then osExpandFuel mapping fuel (rest.drop nw.2)
        else Option.map (fun t => c :: t) (osExpandFuel mapping fuel rest)
      else
        match mapping nw.1 with
        | none => none
        | some v => Option.map (fun t => v ++ t) (osExpandFuel mapping fuel (rest.drop nw.2))
    else Option.map (fun t => c :: t) (osExpandFuel mapping fuel rest)

/-- Model of `os.Expand`. -/
def osExpand (mapping : Str → Option Str) (s : Str) : Option Str :=
  osExpandFuel mapping s.length s

/-- Model of `env.Expand`: `os.Expand` with the resolution closure. -/
def Expand (env : EnvMap) (s : Str) : Option Str :=
  osExpand (expandBody env) s

/-- The per-value transformation of `Override`: the source passes
`Expand` itself as the mapping of `os.Expand` (`os.Expand(v, Expand)`),
so each placeholder body is fed through the whole of `Expand`, not
looked up. -/
def overrideValue (env : EnvMap) (v : Str) : Option Str :=
  osExpand (fun name => Expand env name) v

/-- The inner loop of `Load` over one parsed file: keys in the snapshot
taken at load start are skipped, others are committed with their
`Expand`-ed value.  `none` models a panic inside `Expand`. -/
def loadPairs (snap : List Str) : EnvMap → List (Str × Str) → Option EnvMap
  | env, [] => some env
  | env, (k, v) :: rest =>
    if k ∈ snap then loadPairs snap env rest
    else
      match Expand env v with
      | none => none
      | some w => loadPairs snap (setEnv env k w) rest

/-- The file loop of `Load`: a file is a `godotenv.Read` result, either
a parse error or a key/value list.  On a parse error the loop returns
that error with the environment as already written. -/
def loadFilesAux (snap : List Str) :
    EnvMap → List (Except String (List (Str × Str))) →
    Option (EnvMap × Option String)
  | env, [] => some (env, none)
  | env, Except.error e :: _ => some (env, some e)
  | env, Except.ok pairs :: rest =>
    match loadPairs snap env pairs with
    | none => none
    | some env2 => loadFilesAux snap env2 rest

/-- Model of `env.Load`: snapshot the current keys, then process the
files in order. -/
def Load (env : EnvMap) (files : List (Except String (List (Str × Str)))) :
    Option (EnvMap × Option String) :=
  loadFilesAux (envKeysOf env) env files

/-- The inner loop of `Override` over one parsed file: every key is
committed unconditionally with `os.Expand(v, Expand)`. -/
def overridePairs : EnvMap → List (Str × Str) → Option EnvMap
  | env, [] => some env
  | env, (k, v) :: rest =>
    match overrideValue env v with
    | none => none
    | some w => overridePairs (setEnv env k w) rest

/-- Model of `env.Override`. -/
def Override : EnvMap → List (Except String (List (Str × Str))) →
    Option (EnvMap × Option String)
  | env, [] => some (env, none)
  | env, Except.error e :: _ => some (env, some e)
  | env, Except.ok pairs :: rest =>
    match overridePairs env pairs with
    | none => none
    | some env2 => Override env2 rest

/-- Model of `os.Getenv`: empty string for an unset variable. -/
def getEnvGo (env : EnvMap) (k : Str) : Str := (lookupEnv env k).getD []

/-- Model of `env.GetT`: convert the raw `os.Getenv` value. -/
def GetT {α : Type} (env : EnvMap) (k : Str)
    (convert : Str → Except String α) : Except String α :=
  convert (getEnvGo env k)

/-- Model of `env.GetTOr`: Go returns a pair (value, error); the second
component is the surfaced error, `none` for a nil error. -/
def GetTOr {α : Type} (env : EnvMap) (k : Str)
    (convert : Str → Except String α) (defaultValue : α) : α × Option String :=
  match lookupEnv env k with
  | some v =>
    match convert v with
    | Except.error e => (defaultValue, some e)
    | Except.ok x => (x, none)
  | none => (defaultValue, none)

def digitVal (c : Char) : Option Nat :=
  if '0' ≤ c ∧ c ≤ '9' then some (c.toNat - '0'.toNat) else none

def digitsToNatAux : Nat → Str → Option Nat
  | acc, [] => some acc
  | acc, c :: rest =>
    match digitVal c with
    | none => none
    | some d => digitsToNatAux (acc * 10 + d) rest

/-- Value of a non-empty all-digit string, `none` otherwise. -/
def digitsToNat : Str → Option Nat
  | [] => none
  | s => digitsToNatAux 0 s

/-- Model of `strconv.ParseInt(s, 10, 64)` (and of `strconv.Atoi`, since
Go's `int` is 64-bit here): optional sign, one or more decimal digits,
64-bit signed range check.  Error values are abbreviated to the
`strconv` error kinds. -/
def goParseInt64 (s : Str) : Except String Int :=
  match s with
  | [] => Except.error "invalid syntax"
  | c :: rest =>
    let signDigits : Bool × Str :=
      if c = '-' then (true, rest)
      else if c = '+' then (false, rest)
      else (false, c :: rest)
    match digitsToNat signDigits.2 with
    | none => Except.error "invalid syntax"
    | some n =>
      let v : Int := if signDigits.1 then -(n : Int) else (n : Int)
      if v < -(2 ^ 63) ∨ (2 ^ 63 - 1 : Int) < v then
        Except.error "value out of range"
      else Except.ok v

/-- Model of `strconv.ParseUint(s, 10, 64)`: no sign allowed. -/
def goParseUint64 (s : Str) : Except String Nat :=
  match digitsToNat s with
  | none => Except.error "invalid syntax"
  | some n =>
    if (2 ^ 64 - 1 : Nat) < n then Except.error "value out of range"
    else Except.ok n

/-- Model of `strconv.ParseBool`: the fixed accepted spellings. -/
def goParseBool (s : Str) : Except String Bool :=
  if s = ['1'] ∨ s = ['t'] ∨ s = ['T'] ∨ s = ['T', 'R', 'U', 'E'] ∨
      s = ['t', 'r', 'u', 'e'] ∨ s = ['T', 'r', 'u', 'e'] then Except.ok true
  else if s = ['0'] ∨ s = ['f'] ∨ s = ['F'] ∨ s = ['F', 'A', 'L', 'S', 'E'] ∨
      s = ['f', 'a', 'l', 's', 'e'] ∨ s = ['F', 'a', 'l', 's', 'e'] then
    Except.ok false
  else Except.error "invalid syntax"

/-- Model of `env.GetInt` (`GetT` with `strconv.Atoi`). -/
def GetInt (env : EnvMap) (k : Str) : Except String Int :=
  GetT env k goParseInt64

/-- Model of `env.GetInt64`. -/
def GetInt64 (env : EnvMap) (k : Str) : Except String Int :=
  GetT env k goParseInt64

/-- Model of `env.GetUint64`. -/
def GetUint64 (env : EnvMap) (k : Str) : Except String Nat :=
  GetT env k goParseUint64

/-- Model of `env.GetBool`. -/
def GetBool (env : EnvMap) (k : Str) : Except String Bool :=
  GetT env k goParseBool

/-- Model of `strings.Join(v, ",")`. -/
def joinComma : List Str → Str
  | [] => []
  | [s] => s
  | s :: rest => s ++ ',' :: joinComma rest

/-- Model of `strings.Split(s, ",")`: `[""]` on the empty string. -/
def splitComma : Str → List Str
  | [] => [[]]
  | c :: rest =>
    if c = ',' then [] :: splitComma rest
    else
      match splitComma rest with
      | s :: ss => (c :: s) :: ss
      | [] => [[c]]

/-- Model of `env.SetStrings`: commit the comma-joined list. -/
def SetStrings (env : EnvMap) (k : Str) (v : List Str) : EnvMap :=
  setEnv env k (joinComma v)

/-- Model of `env.MustGetStrings`: its converter never errors, so the
panic path of `MustGetT` is unreachable and the result is total. -/
def MustGetStrings (env : EnvMap) (k : Str) : List Str :=
  splitComma (getEnvGo env k)

/-- Model of `env.GetStringsOr`, converter embedded as written: on an
empty raw value it re-checks `os.LookupEnv` and errors when unset. -/
def GetStringsOr (env : EnvMap) (k : Str) (defaultValue : List Str) :
    List Str × Option String :=
  GetTOr env k
    (fun s =>
      if s = [] then
        if lookupEnv env k = none then Except.error "env not found"
        else Except.ok (splitComma s)
      else Except.ok (splitComma s))
    defaultValue

/-! Spec-side model of the placeholder grammar of section 4.1, for the
refinement claim: parse a body into candidate keys, an explicit-default
marker and a default value, following the spec's processing algorithm. -/

/-- Spec model, section 4.1 step 3/4: split on `'|'` characters not
preceded by a backslash; returns the first segment and the following
segments. -/
def splitUnescAux : Option Char → Str → Str × List Str
  | _, [] => ([], [])
  | prev, c :: rest =>
    let ht := splitUnescAux (some c) rest
    if c = '|' ∧ prev ≠ some '\\' then ([], ht.1 :: ht.2)
    else (c :: ht.1, ht.2)

/-- All-but-last and last of the nonempty segment list `h :: t`. -/
def splitLast : Str → List Str → List Str × Str
  | h, [] => ([], h)
  | h, h2 :: t =>
    let it := splitLast h2 t
    (h :: it.1, it.2)

/-- Spec model: a parsed key specification (section 3). -/
structure KeySpec where
  candidates : List Str
  hasDefault : Bool
  defaultVal : Str

/-- Spec model of the section 4.1 processing algorithm, steps 1-4: trim,
strip a leading `'|'` (marking an explicit default), split on unescaped
`'|'`; with at least one unescaped `'|'` (or the leading one) the last
segment is the default, unescaped; otherwise the sole segment is the
only candidate key and there is no default. -/
def specParseBody (body : Str) : KeySpec :=
  match trimSpace body with
  | [] => ⟨[[]], false, []⟩
  | c :: rest =>
    if c = '|' then
      let ht := splitUnescAux none rest
      let kd := splitLast ht.1 ht.2
      ⟨kd.1, true, replaceEscPipe kd.2⟩
    else
      let ht := splitUnescAux none (c :: rest)
      match ht.2 with
      | [] => ⟨[ht.1], false, []⟩
      | h2 :: t2 =>
        let kd := splitLast ht.1 (h2 :: t2)
        ⟨kd.1, true, replaceEscPipe kd.2⟩

/-- Spec model, section 4.1 step 5: value of the first candidate key
that is set. -/
def firstSetKey (env : EnvMap) : List Str → Option Str
  | [] => none
  | k :: ks =>
    match lookupEnv env k with
    | some v => some v
    | none => firstSetKey env ks

/-- Spec model, section 4.1 step 5: first set candidate, else the
default if one was specified, else the empty string. -/
def specResolve (env : EnvMap) (ks : KeySpec) : Str :=
  match firstSetKey env ks.candidates with
  | some v => v
  | none => if ks.hasDefault then ks.defaultVal else []

/-- Whether a string contains the two-character sequence of a
placeholder opener. -/
def hasDollarBrace : Str → Bool
  | '$' :: '{' :: _ => true
  | _ :: rest => hasDollarBrace rest
  | [] => false

/-- Whether a string begins with two `'|'` characters. -/
def startsTwoPipes : Str → Bool
  | '|' :: '|' :: _ => true
  | _ => false

/-! General lemmas about the environment model and the helpers. -/

theorem lookup_setEnv_self (env : EnvMap) (k w : Str) :
    lookupEnv (setEnv env k w) k = some w := by
  induction env with
  | nil => simp [setEnv, lookupEnv]
  | cons hd tl ih =>
    obtain ⟨k0, v0⟩ := hd
    by_cases h0 : k0 = k
    · simp [setEnv, h0, lookupEnv]
    · simp [setEnv, h0, lookupEnv, ih]

theorem lookup_setEnv_ne (env : EnvMap) (ka k w : Str) (h : ka ≠ k) :
    lookupEnv (setEnv env ka w) k = lookupEnv env k := by
  induction env with
  | nil => simp [setEnv, lookupEnv, h]
  | cons hd tl ih =>
    obtain ⟨k0, v0⟩ := hd
    by_cases h0 : k0 = ka
    · subst h0
      simp [setEnv, lookupEnv, h]
    · by_cases hk : k0 = k
      · simp [setEnv, h0, lookupEnv, hk, Ne.symm h]
      · simp [setEnv, h0, lookupEnv, hk, ih]

theorem mem_envKeysOf (env : EnvMap) (k y : Str)
    (h : lookupEnv env k = some y) : k ∈ envKeysOf env := by
  induction env with
  | nil => simp [lookupEnv] at h
  | cons hd tl ih =>
    obtain ⟨k0, v0⟩ := hd
    by_cases h0 : k0 = k
    · simp [envKeysOf, h0]
    · simp [lookupEnv, h0] at h
      simp [envKeysOf] at ih ⊢
      exact Or.inr (ih h)

theorem osExpandFuel_no_dollar (m : Str → Option Str) :
    ∀ (fuel : Nat) (s : Str), s.length ≤ fuel → '$' ∉ s →
      osExpandFuel m fuel s = some s := by
  intro fuel
  induction fuel with
  | zero =>
    intro s hs _
    cases s with
    | nil => rfl
    | cons c rest => simp at hs
  | succ n ih =>
    intro s hs hd
    cases s with
    | nil => rfl
    | cons c rest =>
      have hc : ¬(c = '$' ∧ rest ≠ []) := by
        rintro ⟨rfl, -⟩
        exact hd (List.mem_cons_self _ _)
      have hr : '$' ∉ rest := fun hm => hd (List.mem_cons_of_mem _ hm)
      have hl : rest.length ≤ n := by simpa using Nat.le_of_succ_le_succ hs
      simp [osExpandFuel, hc, ih rest hl hr]

/-! Lemmas relating the delimiter scan of `Expand` to the spec-side
split, used by the resolution claim. -/

theorem splitLast_cons (h h2 : Str) (t : List Str) :
    splitLast h (h2 :: t) = (h :: (splitLast h2 t).1, (splitLast h2 t).2) :=
  rfl

theorem splitUnescAux_nil_snd :
    ∀ (p : Option Char) (s : Str), (splitUnescAux p s).2 = [] →
      (splitUnescAux p s).1 = s := by
  intro p s
  induction s generalizing p with
  | nil => intro; rfl
  | cons c rest ih =>
    intro h
    by_cases hc : c = '|' ∧ p ≠ some '\\'
    · simp [splitUnescAux, hc] at h
    · simp [splitUnescAux, hc] at h ⊢
      exact ih (some c) h

theorem scanSegs_split :
    ∀ (cur : Str) (p : Char) (pending : Str) (acc : List Str) (wd : Bool),
      scanSegs (some p) cur pending acc wd =
        (match splitUnescAux (some p) cur with
         | (h, []) => some (acc, pending ++ h, wd)
         | (h, h2 :: t2) =>
           some (acc ++ (splitLast (pending ++ h) (h2 :: t2)).1,
             (splitLast (pending ++ h) (h2 :: t2)).2, true)) := by
  intro cur
  induction cur with
  | nil =>
    intro p pending acc wd
    simp [scanSegs, splitUnescAux]
  | cons c rest ih =>
    intro p pending acc wd
    by_cases hc : c = '|'
    · subst hc
      by_cases hp : p = '\\'
      · subst hp
        rw [show scanSegs (some '\\') ('|' :: rest) pending acc wd =
          scanSegs (some '|') rest (pending ++ ['|']) acc wd by
            simp [scanSegs]]
        rw [ih '|' (pending ++ ['|']) acc wd]
        rcases hsp : splitUnescAux (some '|') rest with ⟨sh, st⟩
        cases st with
        | nil => simp [splitUnescAux, hsp]
        | cons s2 t2 => simp [splitUnescAux, hsp, splitLast_cons]
      · rw [show scanSegs (some p) ('|' :: rest) pending acc wd =
          scanSegs (some '|') rest [] (acc ++ [pending]) true by
            simp [scanSegs, hp]]
        rw [ih '|' [] (acc ++ [pending]) true]
        rcases hsp : splitUnescAux (some '|') rest with ⟨sh, st⟩
        cases st with
        | nil => simp [splitUnescAux, hsp, hp, splitLast_cons, splitLast]
        | cons s2 t2 => simp [splitUnescAux, hsp, hp, splitLast_cons, splitLast]
    · rw [show scanSegs (some p) (c :: rest) pending acc wd =
        scanSegs (some c) rest (pending ++ [c]) acc wd by
          simp [scanSegs, hc]]
      rw [ih c (pending ++ [c]) acc wd]
      rcases hsp : splitUnescAux (some c) rest with ⟨sh, st⟩
      cases st with
      | nil => simp [splitUnescAux, hsp, hc]
      | cons s2 t2 => simp [splitUnescAux, hsp, hc, splitLast_cons]

theorem resolveKeys_eq_firstSet (env : EnvMap) :
    ∀ (ks : List Str) (dflt : Str),
      resolveKeys env ks dflt = (firstSetKey env ks).getD dflt := by
  intro ks
  induction ks with
  | nil => intro dflt; rfl
  | cons k rest ih =>
    intro dflt
    cases h : lookupEnv env k with
    | none => simp [resolveKeys, firstSetKey, h, ih]
    | some v => simp [resolveKeys, firstSetKey, h]

/-! Lemmas about the load loops. -/

theorem loadPairs_keeps_snap (snap : List Str) (k : Str) (hk : k ∈ snap) :
    ∀ (ps : List (Str × Str)) (env env2 : EnvMap),
      loadPairs snap env ps = some env2 →
      lookupEnv env2 k = lookupEnv env k := by
  intro ps
  induction ps with
  | nil =>
    intro env env2 h
    simp [loadPairs] at h
    rw [h]
  | cons p rest ih =>
    intro env env2 h
    obtain ⟨k0, v0⟩ := p
    by_cases h0 : k0 ∈ snap
    · simp [loadPairs, h0] at h
      exact ih env env2 h
    · cases hE : Expand env v0 with
      | none => simp [loadPairs, h0, hE] at h
      | some w =>
        simp [loadPairs, h0, hE] at h
        have hne : k0 ≠ k := fun heq => h0 (heq ▸ hk)
        rw [ih _ _ h, lookup_setEnv_ne _ _ _ _ hne]

theorem loadFilesAux_keeps_snap (snap : List Str) (k : Str) (hk : k ∈ snap) :
    ∀ (files : List (Except String (List (Str × Str))))
      (env env2 : EnvMap) (o : Option String),
      loadFilesAux snap env files = some (env2, o) →
      lookupEnv env2 k = lookupEnv env k := by
  intro files
  induction files with
  | nil =>
    intro env env2 o h
    simp [loadFilesAux] at h
    rw [h.1]
  | cons f rest ih =>
    intro env env2 o h
    cases f with
    | error e =>
      simp [loadFilesAux] at h
      rw [h.1]
    | ok pairs =>
      cases hp : loadPairs snap env pairs with
      | none => simp [loadFilesAux, hp] at h
      | some env3 =>
        simp [loadFilesAux, hp] at h
        rw [ih _ _ _ h, loadPairs_keeps_snap snap k hk pairs env env3 hp]

theorem loadFilesAux_append_error (snap : List Str) (e : String)
    (rest : List (Except String (List (Str × Str)))) :
    ∀ (pre : List (Except String (List (Str × Str)))) (env env1 : EnvMap),
      loadFilesAux snap env pre = some (env1, none) →
      loadFilesAux snap env (pre ++ Except.error e :: rest) =
        some (env1, some e) := by
  intro pre
  induction pre with
  | nil =>
    intro env env1 h
    simp [loadFilesAux] at h
    rw [h]
    simp [loadFilesAux]
  | cons f pr ih =>
    intro env env1 h
    cases f with
    | error e2 => simp [loadFilesAux] at h
    | ok pairs =>
      cases hp : loadPairs snap env pairs with
      | none => simp [loadFilesAux, hp] at h
      | some env3 =>
        simp [loadFilesAux, hp] at h ⊢
        exact ih env3 env1 h

theorem override_append_error (e : String)
    (rest : List (Except String (List (Str × Str)))) :
    ∀ (pre : List (Except String (List (Str × Str)))) (env env1 : EnvMap),
      Override env pre = some (env1, none) →
      Override env (pre ++ Except.error e :: rest) = some (env1, some e) := by
  intro pre
  induction pre with
  | nil =>
    intro env env1 h
    simp [Override] at h
    rw [h]
    simp [Override]
  | cons f pr ih =>
    intro env env1 h
    cases f with
    | error e2 => simp [Override] at h
    | ok pairs =>
      cases hp : overridePairs env pairs with
      | none => simp [Override, hp] at h
      | some env3 =>
        simp [Override, hp] at h ⊢
        exact ih env3 env1 h

/-! Lemmas about comma joining and splitting. -/

theorem splitComma_no_comma (s : Str) (h : ',' ∉ s) : splitComma s = [s] := by
  induction s with
  | nil => rfl
  | cons c rest ih =>
    have hc : c ≠ ',' := fun heq => h (heq ▸ List.mem_cons_self _ _)
    have hr : ',' ∉ rest := fun hm => h (List.mem_cons_of_mem _ hm)
    simp [splitComma, hc, ih hr]

theorem splitComma_append (s t : Str) (h : ',' ∉ s) :
    splitComma (s ++ ',' :: t) = s :: splitComma t := by
  induction s with
  | nil => simp [splitComma]
  | cons c rest ih =>
    have hc : c ≠ ',' := fun heq => h (heq ▸ List.mem_cons_self _ _)
    have hr : ',' ∉ rest := fun hm => h (List.mem_cons_of_mem _ hm)
    simp [splitComma, hc, ih hr]

theorem splitComma_joinComma (v : List Str) (h1 : v ≠ [])
    (h2 : ∀ s ∈ v, ',' ∉ s) : splitComma (joinComma v) = v := by
  induction v with
  | nil => exact absurd rfl h1
  | cons s rest ih =>
    cases rest with
    | nil =>
      simpa [joinComma] using splitComma_no_comma s (h2 s (List.mem_cons_self _ _))
    | cons s2 r2 =>
      have hj : joinComma (s :: s2 :: r2) = s ++ ',' :: joinComma (s2 :: r2) := rfl
      rw [hj, splitComma_append s _ (h2 s (List.mem_cons_self _ _))]
      have := ih (List.cons_ne_nil _ _)
        (fun x hx => h2 x (List.mem_cons_of_mem _ hx))
      rw [this]

theorem specResolve_hasDefault (env : EnvMap) (ks : List Str) (d : Str) :
    specResolve env ⟨ks, true, d⟩ = resolveKeys env ks d := by
  rw [resolveKeys_eq_firstSet]
  cases h : firstSetKey env ks <;> simp [specResolve, h]

theorem specResolve_noDefault (env : EnvMap) (ks : List Str) :
    specResolve env ⟨ks, false, []⟩ = resolveKeys env ks [] := by
  rw [resolveKeys_eq_firstSet]
  cases h : firstSetKey env ks <;> simp [specResolve, h]

/-! Claim theorems. -/

/-- C1 (amended): for every placeholder body whose trimmed form is
non-empty and does not begin with two `'|'` characters, the mapping
closure of `Expand` resolves it per the section 4.1 algorithm: candidate
keys (the delimited segments, taken verbatim) are tried in listed order
and the environment value of the first set key is returned — a key set
to the empty string counts as set; when none is set the default value
(unescaped) is returned if at least one unescaped `'|'` was present,
else the empty string. -/
theorem expand_body_resolution (env : EnvMap) (body : Str)
    (h1 : trimSpace body ≠ [])
    (h2 : startsTwoPipes (trimSpace body) = false) :
    expandBody env body = some (specResolve env (specParseBody body)) := by
  rcases ht0 : trimSpace body with - | ⟨c, rest⟩
  · exact absurd ht0 h1
  · rw [ht0] at h2
    by_cases hc : c = '|'
    · subst hc
      cases rest with
      | nil =>
        simp [expandBody, specParseBody, ht0, scanSegs, splitUnescAux,
          splitLast, specResolve, firstSetKey, resolveKeys, replaceEscPipe]
      | cons c2 r2 =>
        have hc2 : c2 ≠ '|' := by
          intro h
          subst h
          simp [startsTwoPipes] at h2
        simp only [expandBody, specParseBody, ht0, if_true, decide_True]
        rw [show scanSegs none (c2 :: r2) [] [] true =
          scanSegs (some c2) r2 [c2] [] true by simp [scanSegs, hc2]]
        rw [scanSegs_split r2 c2 [c2] [] true]
        rcases hsp : splitUnescAux (some c2) r2 with ⟨sh, st⟩
        cases st with
        | nil =>
          have hshr : sh = r2 := by
            have := splitUnescAux_nil_snd (some c2) r2 (by rw [hsp])
            rw [hsp] at this
            exact this
          subst hshr
          simp [splitUnescAux, hsp, hc2, splitLast, specResolve_hasDefault]
        | cons s2 t2 =>
          simp [splitUnescAux, hsp, hc2, splitLast_cons,
            specResolve_hasDefault, resolveKeys]
    · simp only [expandBody, specParseBody, ht0, hc, if_false, decide_False]
      rw [show scanSegs none (c :: rest) [] [] false =
        scanSegs (some c) rest [c] [] false by simp [scanSegs, hc]]
      rw [scanSegs_split rest c [c] [] false]
      rcases hsp : splitUnescAux (some c) rest with ⟨sh, st⟩
      cases st with
      | nil =>
        have hshr : sh = rest := by
          have := splitUnescAux_nil_snd (some c) rest (by rw [hsp])
          rw [hsp] at this
          exact this
        subst hshr
        simp [splitUnescAux, hsp, hc, specResolve_noDefault]
      | cons s2 t2 =>
        simp [splitUnescAux, hsp, hc, splitLast_cons, specResolve_hasDefault]

/-- Witness for C1: body `B|A|d` with `A` set to `x`; the body resolves
through the fallback chain to `x`. -/
theorem expand_body_resolution_witness :
    trimSpace ['B', '|', 'A', '|', 'd'] ≠ [] ∧
    startsTwoPipes (trimSpace ['B', '|', 'A', '|', 'd']) = false ∧
    expandBody [(['A'], ['x'])] ['B', '|', 'A', '|', 'd'] =
      some (specResolve [(['A'], ['x'])]
        (specParseBody ['B', '|', 'A', '|', 'd'])) :=
  ⟨by decide, by decide, expand_body_resolution _ _ (by decide) (by decide)⟩

/-- C1 counterexample: the body `||d` is non-empty after trimming and
well-formed under the section 4.1 grammar (empty segments are
permitted), and the section 4.1 rules resolve it to `d`; the code,
however, panics on it (`key[i-1]` with `i = 0` after stripping the
leading `'|'`), so `Expand`'s closure returns no string at all. -/
theorem expand_body_resolution_cex :
    expandBody [] ['|', '|', 'd'] = none ∧
    trimSpace ['|', '|', 'd'] ≠ [] ∧
    specResolve [] (specParseBody ['|', '|', 'd']) = ['d'] := by decide

/-- C2: `Expand` is not total — the template `${ }` (whitespace-only
body) makes the mapping closure index `key[0]` on the empty trimmed
body, and `${||d}` makes it index `key[i-1]` at `i = 0`; both are
index-out-of-range panics, modelled as `none`. -/
theorem expand_panics_on_malformed :
    Expand [] ['$', '{', ' ', '}'] = none ∧
    Expand [] ['$', '{', '|', '|', 'd', '}'] = none := by decide

/-- C3: escaping is not reversed in key position — for the body
`KEY\|_SUFFIX|default` with the environment containing the literal key
`KEY|_SUFFIX` set to `v`, the code looks up the raw segment
`KEY\|_SUFFIX` (backslash retained; only the default value is passed
through the `\|` unescape), misses, and returns `default` instead of
`v`. -/
theorem escaped_key_not_unescaped :
    lookupEnv [(['K', 'E', 'Y', '|', '_', 'S', 'U', 'F', 'F', 'I', 'X'], ['v'])]
      ['K', 'E', 'Y', '|', '_', 'S', 'U', 'F', 'F', 'I', 'X'] = some ['v'] ∧
    Expand [(['K', 'E', 'Y', '|', '_', 'S', 'U', 'F', 'F', 'I', 'X'], ['v'])]
      ['$', '{', 'K', 'E', 'Y', '\\', '|', '_', 'S', 'U', 'F', 'F', 'I', 'X',
        '|', 'd', 'e', 'f', 'a', 'u', 'l', 't', '}'] =
      some ['d', 'e', 'f', 'a', 'u', 'l', 't'] ∧
    (['d', 'e', 'f', 'a', 'u', 'l', 't'] : Str) ≠ ['v'] := by decide

/-- C4 counterexample: `$A` contains no `${` yet is not left unchanged —
`os.Expand` also rewrites unbraced `$NAME` references, so with `A` unset
the result is the empty string. -/
theorem expand_identity_cex :
    hasDollarBrace ['$', 'A'] = false ∧
    Expand [] ['$', 'A'] = some [] ∧
    (['$', 'A'] : Str) ≠ ([] : Str) := by decide

/-- C4 (amended): `Expand` is the identity on every string containing no
`'$'` character at all, regardless of the environment. -/
theorem expand_identity_no_dollar (env : EnvMap) (s : Str) (h : '$' ∉ s) :
    Expand env s = some s :=
  osExpandFuel_no_dollar (expandBody env) s.length s le_rfl h

/-- Witness for C4 (amended) at the dollar-free string `ab`. -/
theorem expand_identity_no_dollar_witness :
    '$' ∉ (['a', 'b'] : Str) ∧
    Expand [(['a'], ['y'])] ['a', 'b'] = some ['a', 'b'] :=
  ⟨by decide, expand_identity_no_dollar _ _ (by decide)⟩

/-- C5 counterexample: `Override` does not commit `Expand(raw)` — the
source passes `Expand` as the mapping of `os.Expand`, so for the raw
value `${A}` with `A` set to `x` it commits `Expand("A") = "A"` (the
body text, which contains no `'$'`), while `Expand("${A}") = "x"`. -/
theorem override_uses_wrong_expansion :
    Override [(['A'], ['x'])] [Except.ok [(['K'], ['$', '{', 'A', '}'])]] =
      some ([(['A'], ['x']), (['K'], ['A'])], none) ∧
    Expand [(['A'], ['x'])] ['$', '{', 'A', '}'] = some ['x'] ∧
    (['A'] : Str) ≠ ['x'] := by decide

/-- C5 (amended): for a key/value pair read during an override load, the
value committed is `os.Expand(raw, Expand)` — each placeholder body is
replaced by `Expand` applied to the body text, not by the section 4.1
resolution of the placeholder — and it is committed unconditionally,
replacing any existing environment value for that key. -/
theorem override_commits_mapped_value (env : EnvMap) (k v w : Str)
    (h : overrideValue env v = some w) :
    Override env [Except.ok [(k, v)]] = some (setEnv env k w, none) ∧
    lookupEnv (setEnv env k w) k = some w := by
  refine ⟨?_, lookup_setEnv_self env k w⟩
  simp [Override, overridePairs, h]

/-- Witness for C5 (amended): key `K` previously `y` is replaced by the
committed value `a`. -/
theorem override_commits_mapped_value_witness :
    overrideValue [(['K'], ['y'])] ['a'] = some ['a'] ∧
    Override [(['K'], ['y'])] [Except.ok [(['K'], ['a'])]] =
      some (setEnv [(['K'], ['y'])] ['K'] ['a'], none) ∧
    lookupEnv (setEnv [(['K'], ['y'])] ['K'] ['a']) ['K'] = some ['a'] :=
  ⟨by decide, override_commits_mapped_value _ _ _ _ (by decide)⟩

/-- C6: a non-destructive `Load` leaves every key present at load start
unchanged — the snapshot of existing keys is taken before any file is
read, and a key in the snapshot is never written. -/
theorem Load_preserves_existing (env : EnvMap)
    (files : List (Except String (List (Str × Str)))) (k y : Str)
    (env2 : EnvMap) (h1 : lookupEnv env k = some y)
    (h2 : Load env files = some (env2, none)) :
    lookupEnv env2 k = some y := by
  have hk : k ∈ envKeysOf env := mem_envKeysOf env k y h1
  have hkeep := loadFilesAux_keeps_snap (envKeysOf env) k hk files env env2
    none h2
  rw [hkeep, h1]

/-- Witness for C6: `K=y` survives a load of a file defining `K=z`,
while the fresh key `B` is written. -/
theorem Load_preserves_existing_witness :
    lookupEnv [(['K'], ['y'])] ['K'] = some ['y'] ∧
    Load [(['K'], ['y'])] [Except.ok [(['K'], ['z']), (['B'], ['b'])]] =
      some ([(['K'], ['y']), (['B'], ['b'])], none) ∧
    lookupEnv [(['K'], ['y']), (['B'], ['b'])] ['K'] = some ['y'] :=
  ⟨by decide, by decide,
    Load_preserves_existing [(['K'], ['y'])]
      [Except.ok [(['K'], ['z']), (['B'], ['b'])]] ['K'] ['y']
      [(['K'], ['y']), (['B'], ['b'])] (by decide) (by decide)⟩

/-- C7: both `Load` and `Override` stop at the first file whose parse
fails, return that parse error unmodified, and keep every environment
write performed for the earlier files of the same call. -/
theorem loads_stop_at_first_bad_file (env : EnvMap)
    (pre rest : List (Except String (List (Str × Str)))) (e : String)
    (env1 env2 : EnvMap)
    (hl : loadFilesAux (envKeysOf env) env pre = some (env1, none))
    (ho : Override env pre = some (env2, none)) :
    Load env (pre ++ Except.error e :: rest) = some (env1, some e) ∧
    Override env (pre ++ Except.error e :: rest) = some (env2, some e) :=
  ⟨loadFilesAux_append_error (envKeysOf env) e rest pre env env1 hl,
    override_append_error e rest pre env env2 ho⟩

/-- Witness for C7: one good file writing `A=a`, then a failing file;
the error `bad` is returned and `A=a` survives in both modes. -/
theorem loads_stop_at_first_bad_file_witness :
    loadFilesAux (envKeysOf []) [] [Except.ok [(['A'], ['a'])]] =
      some ([(['A'], ['a'])], none) ∧
    Override [] [Except.ok [(['A'], ['a'])]] =
      some ([(['A'], ['a'])], none) ∧
    Load [] ([Except.ok [(['A'], ['a'])]] ++ Except.error "bad" :: []) =
      some ([(['A'], ['a'])], some "bad") ∧
    Override [] ([Except.ok [(['A'], ['a'])]] ++ Except.error "bad" :: []) =
      some ([(['A'], ['a'])], some "bad") :=
  ⟨by decide, by decide,
    loads_stop_at_first_bad_file _ _ _ _ _ _ (by decide) (by decide)⟩

/-- C8 counterexample: the element `a,b` contains the separator, so the
stored string `a,b` splits back into two elements; the round trip fails
for lists with comma-bearing elements (and for the empty list, whose
joined form splits to `[""]`). -/
theorem strings_roundtrip_cex :
    MustGetStrings (SetStrings [] ['K'] [['a', ',', 'b']]) ['K'] =
      [['a'], ['b']] ∧
    ([['a'], ['b']] : List Str) ≠ [['a', ',', 'b']] := by decide

/-- C8 (amended): the string-list round trip holds for every non-empty
list whose elements contain no comma: `MustGetStrings` after
`SetStrings` reproduces the list. -/
theorem strings_roundtrip (env : EnvMap) (k : Str) (v : List Str)
    (h1 : v ≠ []) (h2 : ∀ s ∈ v, ',' ∉ s) :
    MustGetStrings (SetStrings env k v) k = v := by
  unfold MustGetStrings SetStrings getEnvGo
  rw [lookup_setEnv_self]
  simpa using splitComma_joinComma v h1 h2

/-- Witness for C8 (amended) at the list `[a, b]`. -/
theorem strings_roundtrip_witness :
    ([['a'], ['b']] : List Str) ≠ [] ∧
    (∀ s ∈ ([['a'], ['b']] : List Str), ',' ∉ s) ∧
    MustGetStrings (SetStrings [] ['K'] [['a'], ['b']]) ['K'] =
      [['a'], ['b']] :=
  ⟨by decide, by decide, strings_roundtrip _ _ _ (by decide) (by decide)⟩

/-- C9: for an absent key, `GetT` hands the converter the empty string
(`os.Getenv` yields `""` for unset variables), so the plain typed
getters cannot distinguish absent from empty; the modelled integer,
64-bit integer, unsigned and boolean converters all return their
empty-string error. -/
theorem plain_getters_absent_key (env : EnvMap) (k : Str) {α : Type}
    (f : Str → Except String α) (h : lookupEnv env k = none) :
    GetT env k f = f [] ∧
    GetInt env k = Except.error "invalid syntax" ∧
    GetInt64 env k = Except.error "invalid syntax" ∧
    GetUint64 env k = Except.error "invalid syntax" ∧
    GetBool env k = Except.error "invalid syntax" := by
  have hg : getEnvGo env k = [] := by simp [getEnvGo, h]
  refine ⟨?_, ?_, ?_, ?_, ?_⟩
  · simp [GetT, hg]
  · show goParseInt64 (getEnvGo env k) = _
    rw [hg]
    rfl
  · show goParseInt64 (getEnvGo env k) = _
    rw [hg]
    rfl
  · show goParseUint64 (getEnvGo env k) = _
    rw [hg]
    rfl
  · show goParseBool (getEnvGo env k) = _
    rw [hg]
    rfl

/-- Witness for C9 at the empty environment and key `K`. -/
theorem plain_getters_absent_key_witness :
    lookupEnv [] ['K'] = none ∧
    GetInt [] ['K'] = Except.error "invalid syntax" :=
  ⟨by decide, (plain_getters_absent_key [] ['K'] goParseBool (by decide)).2.1⟩

/-- C10: `GetStringsOr` never surfaces its internal `env not found`
error — an unset key yields the default with no error, and a set key
(empty string included) yields the comma-split value with no error; the
error branch of its converter requires `os.LookupEnv` to fail after it
already succeeded inside `GetTOr`. -/
theorem get_strings_or_no_internal_error (env : EnvMap) (k : Str)
    (d : List Str) :
    GetStringsOr env k d =
      match lookupEnv env k with
      | none => (d, none)
      | some v => (splitComma v, none) := by
  unfold GetStringsOr GetTOr
  cases h : lookupEnv env k with
  | none => simp
  | some v =>
    by_cases hv : v = []
    · subst hv
      simp [h]
    · simp [h, hv]

end GoEnv
